import Mathlib

/-!
Shallow embedding of `src/pymerger/sorter.py` (class `DependencySorter`).

Conventions of the embedding:
* Python strings are Lean `String`s; `os.sep` is the Linux separator `'/'`.
* A Python `dict` preserving insertion order is an association list
  `List (String × key-value)` together with `insertAssoc`, which overwrites
  in place (keeping the original position) exactly like `d[k] = v`.
* A Python `set` that is only ever extended with `add` and iterated is a
  duplicate-free list in insertion order (`addDep`); Python's actual set
  iteration order is unspecified, which matters only for theorems that
  talk about the iteration order of a dependency set.
* The external collaborators (``open``/``ast.parse``/``ast.walk``, i.e. the
  source extractor) enter the model as a value of
  `Except String (List RawImport)` per file: `.error` is any exception
  caught by the `try`/`except` in `_get_imports_from_file`, `.ok` is the
  list of import nodes found by `ast.walk` in walk order (an `ast.Import`
  with several aliases is flattened into one `RawImport.imp` per alias).
* `os.path.relpath` (used only when `base_dir` is non-empty) is an external
  library function and is passed in as an abstract `relpathFn`.
* Uncaught exceptions (the `StopIteration` of `next(...)`, a `KeyError` of
  `self.module_to_file[module]`) make the run abort; functions that can
  abort this way return `Option`, with `none` for the crash.
* The recursion of `visit` gets an explicit fuel argument so that it is
  structurally recursive; `SortError.fuelOut` is an artifact of the
  embedding and is proved unreachable for the fuel used by
  `topologicalSort` (`registry size + 1`, an upper bound on the length of
  any simple path, hence on the recursion depth of `visit`).
-/

namespace PyMerger

/-- One import statement found by the extractor (`ast.walk`):
`imp name` is one alias of an `ast.Import` node (`import name`),
`impFrom module level` is an `ast.ImportFrom` node
(`from <module> import ...` with `node.level` leading dots). -/
inductive RawImport where
  | imp (name : String)
  | impFrom (module : Option String) (level : Nat)

/-- `self.module_to_file`: identity → file path, insertion ordered. -/
abbrev Registry := List (String × String)

/-- The keys of a Python dict modelled as an association list. -/
def keysOf (mtf : Registry) : List String := mtf.map Prod.fst

/-- `d[k] = v` on an insertion-ordered dict: overwriting keeps the
original position of the key, a new key is appended at the end. -/
def insertAssoc {α : Type} (l : List (String × α)) (k : String) (v : α) :
    List (String × α) :=
  if k ∈ l.map Prod.fst then l.map (fun p => if p.1 = k then (k, v) else p)
  else l ++ [(k, v)]

/-- `rel_path.rstrip('.py')`: Python's `str.rstrip` removes *all* trailing
characters that belong to the character set `{'.', 'p', 'y'}` — not the
suffix `".py"`. -/
def rstripPy (s : String) : String :=
  ⟨(s.data.reverse.dropWhile (fun c => c == '.' || c == 'p' || c == 'y')).reverse⟩

/-- `rel_path.replace(os.sep, '.')` with `os.sep = '/'`. -/
def sepToDot (s : String) : String :=
  ⟨s.data.map (fun c => if c = '/' then '.' else c)⟩

/-- The identity derived for one file in `_build_module_mapping`:
`rel_path = os.path.relpath(filepath, base_dir) if base_dir else filepath`
followed by `rel_path.replace(os.sep, '.').rstrip('.py')`. -/
def moduleNameOf (relpathFn : String → String → String)
    (baseDir filepath : String) : String :=
  rstripPy (sepToDot (if baseDir = "" then filepath else relpathFn filepath baseDir))

/-- `_build_module_mapping`: `self.module_to_file[module_name] = filepath`
for each file, in input order. -/
def buildModuleMapping (relpathFn : String → String → String)
    (files : List String) (baseDir : String) : Registry :=
  files.foldl (fun acc fp => insertAssoc acc (moduleNameOf relpathFn baseDir fp) fp) []

/-- `module_name.split('.')` on the underlying character list: split at
every `'.'`; the empty string splits to `[""]`, like Python's
`''.split('.')`. -/
def splitDots : List Char → List (List Char)
  | [] => [[]]
  | c :: cs =>
    if c = '.' then [] :: splitDots cs
    else
      match splitDots cs with
      | h :: t => (c :: h) :: t
      | [] => [[c]]

/-- `module_name.split('.')`. -/
def splitOnDot (s : String) : List String :=
  (splitDots s.data).map (fun l => ⟨l⟩)

/-- `'.'.join(parts)`. -/
def joinDots : List String → String
  | [] => ""
  | [s] => s
  | s :: rest => s ++ "." ++ joinDots rest

/-- The candidate identity computed for a relative import in
`_get_imports_from_file` (lines 44-48): `parts = module_name.split('.')`;
if `level <= len(parts)` then `base = '.'.join(parts[:-level])` and the
candidate is `f"{base}.{module}" if base else module`; a level that
exceeds the segment count yields no candidate. -/
def relativeCandidate (moduleName m : String) (level : Nat) : Option String :=
  let parts := splitOnDot moduleName
  if level ≤ parts.length then
    let base := joinDots (List.take (parts.length - level) parts)
    some (if base = "" then m else base ++ "." ++ m)
  else none

/-- Resolution of one import node against the registry, following the
branch structure of the `ast.walk` loop in `_get_imports_from_file`:
an `Import` alias is added iff it is a registry key; an `ImportFrom` whose
(truthy) `module` is a registry key is added directly (whatever the
level); otherwise, if `module` is truthy and `level > 0`, the relative
candidate is added iff it is a registry key. Everything else is dropped.
`none` means: nothing is added for this node. -/
def resolveRef (mtf : Registry) (moduleName : String) (r : RawImport) :
    Option String :=
  match r with
  | .imp name => if name ∈ keysOf mtf then some name else none
  | .impFrom mod level =>
    match mod with
    | none => none
    | some m =>
      if m = "" then none
      else if m ∈ keysOf mtf then some m
      else if 0 < level then
        match relativeCandidate moduleName m level with
        | some full => if full ∈ keysOf mtf then some full else none
        | none => none
      else none

/-- `dependencies.add(d)` on the insertion-ordered model of a set. -/
def addDep (deps : List String) (d : String) : List String :=
  if d ∈ deps then deps else deps ++ [d]

/-- The whole `ast.walk` loop of `_get_imports_from_file`: resolve each
node in walk order, collecting the resolved ones into `dependencies`. -/
def resolveAll (mtf : Registry) (moduleName : String)
    (refs : List RawImport) : List String :=
  refs.foldl
    (fun deps r =>
      match resolveRef mtf moduleName r with
      | some d => addDep deps d
      | none => deps)
    []

/-- `next(k for k, v in self.module_to_file.items() if v == filepath)`:
the first key mapped to `filepath`, `none` when the generator is empty
(Python raises an uncaught `StopIteration` then). -/
def firstKeyOf (mtf : Registry) (filepath : String) : Option String :=
  (mtf.find? (fun p => p.2 == filepath)).map Prod.fst

/-- `_get_imports_from_file`: looks up the module name of `filepath`
(outside the `try`, so its `StopIteration` is a crash, `none`), then
resolves the extracted imports; any exception inside the `try`
(`extractRes = .error`) is caught and yields the empty dependency set. -/
def getImportsFromFile (mtf : Registry) (filepath : String)
    (extractRes : Except String (List RawImport)) : Option (List String) :=
  (firstKeyOf mtf filepath).map
    (fun mn =>
      match extractRes with
      | .ok refs => resolveAll mtf mn refs
      | .error _ => [])

/-- `_build_dependency_graph`, written as explicit recursion over
`self.files`: for each file, `module_name = next(...)` (crash: `none`),
then `self.dep_graph[module_name] = self._get_imports_from_file(filepath)`. -/
def buildDependencyGraph (mtf : Registry) :
    List String → (String → Except String (List RawImport)) →
    List (String × List String) → Option (List (String × List String))
  | [], _, graph => some graph
  | fp :: fps, extract, graph =>
    match firstKeyOf mtf fp, getImportsFromFile mtf fp (extract fp) with
    | some mn, some deps => buildDependencyGraph mtf fps extract (insertAssoc graph mn deps)
    | _, _ => none

/-- The exceptions of `_topological_sort`: `cycle node` is the
`ValueError(f"Circular dependency detected involving {node}")`;
`fuelOut` is the embedding's fuel artifact (proved unreachable for the
fuel used by `topologicalSort`). -/
inductive SortError where
  | cycle (node : String)
  | fuelOut

/-- The mutable state of `_topological_sort`: the `visited` set and the
`sorted_modules` list. `temp_mark` is not part of the state — at every
point of the run it holds exactly the chain of `visit` calls currently on
the Python stack, so it is passed as the explicit `path` argument below. -/
structure SortSt where
  visited : List String
  sorted : List String

/-- The dependency loop of `visit`:
`for dep in self.dep_graph[node]: if dep in self.module_to_file: visit(dep)`,
iterating the stored dependency list and threading the state through
`rec`, the recursion on smaller fuel. -/
def visitDeps (keys : List String)
    (rec : List String → String → SortSt → Except SortError SortSt) :
    List String → List String → SortSt → Except SortError SortSt
  | _, [], st => .ok st
  | path, d :: ds, st =>
    if d ∈ keys then
      match rec path d st with
      | .error e => .error e
      | .ok st' => visitDeps keys rec path ds st'
    else visitDeps keys rec path ds st

/-- `visit(node)` of `_topological_sort`: raise on a back-edge
(`node in temp_mark`, i.e. `node ∈ path`), return if already visited,
otherwise push `node` on the path, visit its dependencies, then mark it
visited and append it to `sorted_modules`. -/
def visit (keys : List String) (g : String → List String) :
    Nat → List String → String → SortSt → Except SortError SortSt
  | 0, _, _, _ => .error .fuelOut
  | fuel + 1, path, node, st =>
    if node ∈ path then .error (.cycle node)
    else if node ∈ st.visited then .ok st
    else
      match visitDeps keys (fun p n s => visit keys g fuel p n s) (node :: path) (g node) st with
      | .error e => .error e
      | .ok st' => .ok ⟨node :: st'.visited, st'.sorted ++ [node]⟩

/-- The driver loop of `_topological_sort`:
`for module in self.module_to_file.keys(): if module not in visited: visit(module)`. -/
def sortLoop (keys : List String) (g : String → List String) (fuel : Nat) :
    List String → SortSt → Except SortError SortSt
  | [], st => .ok st
  | m :: ms, st =>
    if m ∈ st.visited then sortLoop keys g fuel ms st
    else
      match visit keys g fuel [] m st with
      | .error e => .error e
      | .ok st' => sortLoop keys g fuel ms st'

/-- `_topological_sort()`: run the driver loop over the registry keys with
empty `visited`/`sorted_modules` and return `sorted_modules`. The fuel
`registry size + 1` strictly exceeds the length of any duplicate-free
path through the registry, which bounds the recursion depth. -/
def topologicalSort (mtf : Registry) (g : String → List String) :
    Except SortError (List String) :=
  (sortLoop (keysOf mtf) g ((keysOf mtf).length + 1) (keysOf mtf) ⟨[], []⟩).map SortSt.sorted

/-- `self.dep_graph` as a total function (`defaultdict(set)`: a missing
key reads as the empty set). -/
def depGraphFun (graph : List (String × List String)) : String → List String :=
  fun m => (List.lookup m graph).getD []

/-- The tail of `get_sorted_files` given the built graph: translate the
sorted identities back to paths (`self.module_to_file[module]`, a
`KeyError` would crash: `none`), or catch the `ValueError` of a detected
cycle and return `[]`. `fuelOut` stands for an uncaught exception. -/
def getSortedFromGraph (mtf : Registry) (g : String → List String) :
    Option (List String) :=
  match topologicalSort mtf g with
  | .ok mods => mods.mapM (fun m => List.lookup m mtf)
  | .error (.cycle _) => some []
  | .error .fuelOut => none

/-- `get_sorted_files()` for a `DependencySorter(files, base_dir)`:
build the registry, build the dependency graph (crash: `none`), sort and
translate. -/
def getSortedFiles (relpathFn : String → String → String)
    (files : List String) (baseDir : String)
    (extract : String → Except String (List RawImport)) : Option (List String) :=
  let mtf := buildModuleMapping relpathFn files baseDir
  match buildDependencyGraph mtf files extract [] with
  | none => none
  | some graph => getSortedFromGraph mtf (depGraphFun graph)

/-- The messages printed by the `except` branch of
`_get_imports_from_file` over a run (`print(f"Error parsing {filepath}: {e}")`),
in file order: the warning channel of the run. -/
def extractionWarnings (files : List String)
    (extract : String → Except String (List RawImport)) : List String :=
  files.filterMap
    (fun fp =>
      match extract fp with
      | .error e => some ("Error parsing " ++ fp ++ ": " ++ e)
      | .ok _ => none)

/-! ### The effective dependency relation

`visit` follows an edge from `node` to `dep` only when `dep` is both in the
stored dependency list and a registry key; `EdgeR` is exactly that relation. -/

/-- `EdgeR keys g m d`: the sorter walks from `m` to `d`
(`d ∈ self.dep_graph[m]` and `d in self.module_to_file`). -/
def EdgeR (keys : List String) (g : String → List String) (m d : String) : Prop :=
  d ∈ g m ∧ d ∈ keys

/-- `c` lies on a cycle of the effective dependency relation. -/
def CycleAt (keys : List String) (g : String → List String) (c : String) : Prop :=
  Relation.TransGen (EdgeR keys g) c c

/-- The recursion path of `visit` (the contents of `temp_mark`, deepest
node first) is a chain: each node is an effective dependency of its
parent. -/
def ChainE (keys : List String) (g : String → List String) : List String → Prop
  | [] => True
  | [_] => True
  | a :: b :: rest => EdgeR keys g b a ∧ ChainE keys g (b :: rest)

lemma chainE_reach (keys : List String) (g : String → List String) :
    ∀ (l : List String) (a : String), ChainE keys g (a :: l) →
      ∀ b ∈ a :: l, Relation.ReflTransGen (EdgeR keys g) b a := by
  intro l
  induction l with
  | nil =>
    intro a _ b hb
    rcases List.mem_singleton.mp hb with rfl
    exact Relation.ReflTransGen.refl
  | cons c t ih =>
    intro a hch b hb
    obtain ⟨hca, hct⟩ := hch
    rcases List.mem_cons.mp hb with rfl | hb'
    · exact Relation.ReflTransGen.refl
    · exact (ih c hct b hb').tail hca

/-- When `visit` raises on `node ∈ temp_mark`, `node` is genuinely on a
cycle: the path below `node` leads back to it. -/
lemma cycleAt_of_mem_path (keys : List String) (g : String → List String)
    (node : String) (path : List String)
    (hch : ChainE keys g (node :: path)) (hmem : node ∈ path) :
    CycleAt keys g node := by
  obtain ⟨l₁, l₂, rfl⟩ := List.append_of_mem hmem
  cases l₁ with
  | nil => exact Relation.TransGen.single hch.1
  | cons c t =>
    obtain ⟨hcn, hct⟩ : EdgeR keys g c node ∧ ChainE keys g (c :: (t ++ node :: l₂)) := hch
    have hreach : Relation.ReflTransGen (EdgeR keys g) node c :=
      chainE_reach keys g _ c hct node (by simp)
    exact Relation.TransGen.tail' hreach hcn

/-- Pushing a fresh registry node on the path strictly shrinks the set of
registry nodes missing from the path: the fuel measure of `visit`. -/
lemma card_sdiff_cons_lt (keys path : List String) (node : String)
    (hk : node ∈ keys) (hp : node ∉ path) :
    (keys.toFinset \ (node :: path).toFinset).card <
      (keys.toFinset \ path.toFinset).card := by
  have hmem : node ∈ keys.toFinset \ path.toFinset := by
    simp [List.mem_toFinset, hk, hp]
  have hpos : 0 < (keys.toFinset \ path.toFinset).card :=
    Finset.card_pos.mpr ⟨node, hmem⟩
  rw [List.toFinset_cons, Finset.sdiff_insert, Finset.card_erase_of_mem hmem]
  omega

/-- Invariant of the sorter state: `visited` and `sorted_modules` hold the
same modules, `sorted_modules` is duplicate-free, every module already
emitted has all its effective dependencies emitted strictly before it,
and everything emitted is a registry key. -/
structure GoodSt (keys : List String) (g : String → List String) (st : SortSt) : Prop where
  mem_iff : ∀ x, x ∈ st.visited ↔ x ∈ st.sorted
  nd : st.sorted.Nodup
  topo : ∀ m d, EdgeR keys g m d → m ∈ st.sorted →
    d ∈ st.sorted ∧ st.sorted.indexOf d < st.sorted.indexOf m
  sub : ∀ x ∈ st.sorted, x ∈ keys

/-- Appending a fresh node whose effective dependencies are all visited
preserves the invariant. -/
lemma GoodSt.append_node {keys : List String} {g : String → List String} {st' : SortSt}
    (h : GoodSt keys g st') {node : String}
    (hnv : node ∉ st'.visited) (hk : node ∈ keys)
    (hdeps : ∀ d, EdgeR keys g node d → d ∈ st'.visited) :
    GoodSt keys g ⟨node :: st'.visited, st'.sorted ++ [node]⟩ := by
  have hns : node ∉ st'.sorted := fun hx => hnv ((h.mem_iff node).mpr hx)
  refine ⟨?_, ?_, ?_, ?_⟩
  · intro x
    simp only [List.mem_cons, List.mem_append, List.mem_singleton, h.mem_iff x]
    tauto
  · rw [List.nodup_append_comm]
    exact List.nodup_cons.mpr ⟨hns, h.nd⟩
  · intro m d hE hm
    rcases List.mem_append.mp hm with hm' | hm'
    · obtain ⟨hd, hlt⟩ := h.topo m d hE hm'
      refine ⟨List.mem_append.mpr (.inl hd), ?_⟩
      rw [List.indexOf_append_of_mem hd, List.indexOf_append_of_mem hm']
      exact hlt
    · rcases List.mem_singleton.mp hm' with rfl
      have hd : d ∈ st'.sorted := (h.mem_iff d).mp (hdeps d hE)
      refine ⟨List.mem_append.mpr (.inl hd), ?_⟩
      rw [List.indexOf_append_of_mem hd, List.indexOf_append_of_not_mem hns]
      have hlen := List.indexOf_lt_length.mpr hd
      simp only [List.indexOf_cons_self]
      omega
  · intro x hx
    rcases List.mem_append.mp hx with hx' | hx'
    · exact h.sub x hx'
    · rcases List.mem_singleton.mp hx' with rfl
      exact hk

/-- Unfolding equation of `visit` at positive fuel (definitional). -/
lemma visit_succ (keys : List String) (g : String → List String) (fuel : Nat)
    (path : List String) (node : String) (st : SortSt) :
    visit keys g (fuel + 1) path node st =
      (if node ∈ path then .error (.cycle node)
      else if node ∈ st.visited then .ok st
      else
        match visitDeps keys (fun p n s => visit keys g fuel p n s) (node :: path) (g node) st with
        | .error e => .error e
        | .ok st' => .ok ⟨node :: st'.visited, st'.sorted ++ [node]⟩) := rfl

/-- Specification of the dependency loop, assuming a specification `hrec`
of the recursive call at the current path: either it succeeds preserving
the invariant, having extended `sorted_modules` and visited every
effective dependency in the list, adding only nodes off the current path
— or it reports a genuine cycle. -/
lemma visitDeps_spec (keys : List String) (g : String → List String)
    (rec : List String → String → SortSt → Except SortError SortSt)
    (hd : String) (tl : List String)
    (hrec : ∀ node' st', node' ∈ keys → ChainE keys g (node' :: hd :: tl) →
        GoodSt keys g st' →
        (∃ st'', rec (hd :: tl) node' st' = .ok st'' ∧ GoodSt keys g st'' ∧
          node' ∈ st''.visited ∧ (∃ δ, st''.sorted = st'.sorted ++ δ) ∧
          (∀ x ∈ st''.visited, x ∈ st'.visited ∨ x ∉ hd :: tl)) ∨
        (∃ c, rec (hd :: tl) node' st' = .error (.cycle c) ∧ CycleAt keys g c))
    (hch : ChainE keys g (hd :: tl)) :
    ∀ (deps : List String) (st : SortSt), (∀ d ∈ deps, d ∈ g hd) → GoodSt keys g st →
    (∃ st', visitDeps keys rec (hd :: tl) deps st = .ok st' ∧ GoodSt keys g st' ∧
      (∃ δ, st'.sorted = st.sorted ++ δ) ∧
      (∀ d ∈ deps, d ∈ keys → d ∈ st'.visited) ∧
      (∀ x ∈ st'.visited, x ∈ st.visited ∨ x ∉ hd :: tl)) ∨
    (∃ c, visitDeps keys rec (hd :: tl) deps st = .error (.cycle c) ∧ CycleAt keys g c) := by
  intro deps
  induction deps with
  | nil =>
    intro st _ hgood
    exact .inl ⟨st, rfl, hgood, ⟨[], by simp⟩, by simp, fun x hx => .inl hx⟩
  | cons d ds ih =>
    intro st hdeps hgood
    by_cases hdk : d ∈ keys
    · have hch' : ChainE keys g (d :: hd :: tl) := ⟨⟨hdeps d (by simp), hdk⟩, hch⟩
      rcases hrec d st hdk hch' hgood with
        ⟨st₁, heq, hg₁, hdv, ⟨δ₁, hδ₁⟩, hdis₁⟩ | ⟨c, heq, hc⟩
      · rcases ih st₁ (fun d' hd' => hdeps d' (by simp [hd'])) hg₁ with
          ⟨st₂, heq₂, hg₂, ⟨δ₂, hδ₂⟩, hin₂, hdis₂⟩ | ⟨c, heq₂, hc₂⟩
        · refine .inl ⟨st₂, ?_, hg₂, ⟨δ₁ ++ δ₂, by rw [hδ₂, hδ₁, List.append_assoc]⟩, ?_, ?_⟩
          · simp [visitDeps, hdk, heq, heq₂]
          · intro d' hd' hdk'
            rcases List.mem_cons.mp hd' with rfl | hd''
            · have h1 : d' ∈ st₁.sorted := (hg₁.mem_iff d').mp hdv
              have h2 : d' ∈ st₂.sorted := by
                rw [hδ₂]; exact List.mem_append.mpr (.inl h1)
              exact (hg₂.mem_iff d').mpr h2
            · exact hin₂ d' hd'' hdk'
          · intro x hx
            rcases hdis₂ x hx with hx₁ | hnp
            · rcases hdis₁ x hx₁ with h0 | hnp
              · exact .inl h0
              · exact .inr hnp
            · exact .inr hnp
        · exact .inr ⟨c, by simp [visitDeps, hdk, heq, heq₂], hc₂⟩
      · exact .inr ⟨c, by simp [visitDeps, hdk, heq], hc⟩
    · rcases ih st (fun d' hd' => hdeps d' (by simp [hd'])) hgood with
        ⟨st', heq, hg, hext, hin, hdis⟩ | ⟨c, heq, hc⟩
      · refine .inl ⟨st', by simp [visitDeps, hdk, heq], hg, hext, ?_, hdis⟩
        intro d' hd' hdk'
        rcases List.mem_cons.mp hd' with rfl | h'
        · exact absurd hdk' hdk
        · exact hin d' h' hdk'
      · exact .inr ⟨c, by simp [visitDeps, hdk, heq], hc⟩

/-- Main specification of `visit`: with fuel exceeding the number of
registry nodes off the path, a chain-shaped path, and a good state,
`visit` either succeeds — preserving the invariant, marking `node`
visited, extending `sorted_modules`, and adding only nodes off the path —
or raises the cycle `ValueError` naming a node that is genuinely on a
cycle. In particular it never runs out of fuel. -/
lemma visit_spec (keys : List String) (g : String → List String) :
    ∀ (fuel : Nat) (path : List String) (node : String) (st : SortSt),
    (keys.toFinset \ path.toFinset).card < fuel →
    node ∈ keys → ChainE keys g (node :: path) → GoodSt keys g st →
    (∃ st', visit keys g fuel path node st = .ok st' ∧ GoodSt keys g st' ∧
      node ∈ st'.visited ∧ (∃ δ, st'.sorted = st.sorted ++ δ) ∧
      (∀ x ∈ st'.visited, x ∈ st.visited ∨ x ∉ path)) ∨
    (∃ c, visit keys g fuel path node st = .error (.cycle c) ∧ CycleAt keys g c) := by
  intro fuel
  induction fuel with
  | zero => intro path node st hfuel; omega
  | succ fuel ih =>
    intro path node st hfuel hk hch hgood
    by_cases hnp : node ∈ path
    · exact .inr ⟨node, by rw [visit_succ]; simp [hnp],
        cycleAt_of_mem_path keys g node path hch hnp⟩
    · by_cases hnv : node ∈ st.visited
      · exact .inl ⟨st, by rw [visit_succ]; simp [hnp, hnv], hgood, hnv,
          ⟨[], by simp⟩, fun x hx => .inl hx⟩
      · have hfuel' : (keys.toFinset \ (node :: path).toFinset).card < fuel := by
          have := card_sdiff_cons_lt keys path node hk hnp
          omega
        have hrec : ∀ node' st', node' ∈ keys → ChainE keys g (node' :: node :: path) →
            GoodSt keys g st' →
            (∃ st'', (fun p n s => visit keys g fuel p n s) (node :: path) node' st' = .ok st'' ∧
              GoodSt keys g st'' ∧ node' ∈ st''.visited ∧
              (∃ δ, st''.sorted = st'.sorted ++ δ) ∧
              (∀ x ∈ st''.visited, x ∈ st'.visited ∨ x ∉ node :: path)) ∨
            (∃ c, (fun p n s => visit keys g fuel p n s) (node :: path) node' st' =
              .error (.cycle c) ∧ CycleAt keys g c) :=
          fun node' st' h1 h2 h3 => ih (node :: path) node' st' hfuel' h1 h2 h3
        rcases visitDeps_spec keys g (fun p n s => visit keys g fuel p n s) node path hrec hch
            (g node) st (fun d h => h) hgood with
          ⟨st', heq, hg', ⟨δ, hδ⟩, hin, hdis⟩ | ⟨c, heq, hc⟩
        · have hnv' : node ∉ st'.visited := by
            intro hx
            rcases hdis node hx with h0 | hnp'
            · exact hnv h0
            · exact hnp' (by simp)
          refine .inl ⟨⟨node :: st'.visited, st'.sorted ++ [node]⟩, ?_, ?_, by simp,
            ⟨δ ++ [node], by rw [hδ, List.append_assoc]⟩, ?_⟩
          · rw [visit_succ]; simp [hnp, hnv, heq]
          · exact hg'.append_node hnv' hk (fun d hE => hin d hE.1 hE.2)
          · intro x hx
            rcases List.mem_cons.mp hx with rfl | hx'
            · exact .inr hnp
            · rcases hdis x hx' with h0 | hnp'
              · exact .inl h0
              · exact .inr (fun hxp => hnp' (by simp [hxp]))
        · exact .inr ⟨c, by rw [visit_succ]; simp [hnp, hnv, heq], hc⟩

/-- Specification of the driver loop of `_topological_sort`. -/
lemma sortLoop_spec (keys : List String) (g : String → List String) (fuel : Nat)
    (hfuel : keys.toFinset.card < fuel) :
    ∀ (pending : List String) (st : SortSt),
    (∀ m ∈ pending, m ∈ keys) → GoodSt keys g st →
    (∃ st', sortLoop keys g fuel pending st = .ok st' ∧ GoodSt keys g st' ∧
      (∀ m ∈ pending, m ∈ st'.visited) ∧ (∀ x ∈ st.visited, x ∈ st'.visited)) ∨
    (∃ c, sortLoop keys g fuel pending st = .error (.cycle c) ∧ CycleAt keys g c) := by
  intro pending
  induction pending with
  | nil =>
    intro st _ hgood
    exact .inl ⟨st, rfl, hgood, by simp, fun x hx => hx⟩
  | cons m ms ih =>
    intro st hmem hgood
    by_cases hmv : m ∈ st.visited
    · rcases ih st (fun x hx => hmem x (by simp [hx])) hgood with
        ⟨st', heq, hg, hin, hmono⟩ | ⟨c, heq, hc⟩
      · refine .inl ⟨st', by simp [sortLoop, hmv, heq], hg, ?_, hmono⟩
        intro x hx
        rcases List.mem_cons.mp hx with rfl | h'
        · exact hmono x hmv
        · exact hin x h'
      · exact .inr ⟨c, by simp [sortLoop, hmv, heq], hc⟩
    · have h1 : (keys.toFinset \ ([] : List String).toFinset).card < fuel := by
        simpa using hfuel
      have hch : ChainE keys g (m :: ([] : List String)) := trivial
      rcases visit_spec keys g fuel [] m st h1 (hmem m (by simp)) hch hgood with
        ⟨st₁, heq, hg₁, hmv₁, ⟨δ, hδ⟩, _⟩ | ⟨c, heq, hc⟩
      · rcases ih st₁ (fun x hx => hmem x (by simp [hx])) hg₁ with
          ⟨st', heq₂, hg, hin, hmono⟩ | ⟨c, heq₂, hc₂⟩
        · refine .inl ⟨st', by simp [sortLoop, hmv, heq, heq₂], hg, ?_, ?_⟩
          · intro x hx
            rcases List.mem_cons.mp hx with rfl | h'
            · exact hmono x hmv₁
            · exact hin x h'
          · intro x hx
            have hx₁ : x ∈ st₁.visited := by
              have hx' : x ∈ st.sorted := (hgood.mem_iff x).mp hx
              have : x ∈ st₁.sorted := by
                rw [hδ]; exact List.mem_append.mpr (.inl hx')
              exact (hg₁.mem_iff x).mpr this
            exact hmono x hx₁
        · exact .inr ⟨c, by simp [sortLoop, hmv, heq, heq₂], hc₂⟩
      · exact .inr ⟨c, by simp [sortLoop, hmv, heq], hc⟩

/-- Global dichotomy for `_topological_sort`: it returns either a
duplicate-free sequence that contains exactly the registry keys and
respects every effective edge, or the cycle `ValueError` naming a module
on a genuine cycle. The embedding's fuel is never exhausted. -/
theorem topologicalSort_spec (mtf : Registry) (g : String → List String) :
    (∃ l, topologicalSort mtf g = .ok l ∧ l.Nodup ∧
      (∀ x ∈ l, x ∈ keysOf mtf) ∧ (∀ m ∈ keysOf mtf, m ∈ l) ∧
      (∀ m d, EdgeR (keysOf mtf) g m d → m ∈ l → d ∈ l ∧ l.indexOf d < l.indexOf m)) ∨
    (∃ c, topologicalSort mtf g = .error (.cycle c) ∧ CycleAt (keysOf mtf) g c) := by
  have hgood0 : GoodSt (keysOf mtf) g ⟨[], []⟩ := by
    refine ⟨by simp, List.nodup_nil, by simp, by simp⟩
  have hfuel : (keysOf mtf).toFinset.card < (keysOf mtf).length + 1 :=
    Nat.lt_succ_of_le (List.toFinset_card_le _)
  rcases sortLoop_spec (keysOf mtf) g _ hfuel (keysOf mtf) ⟨[], []⟩ (fun m hm => hm) hgood0 with
    ⟨st', heq, hg, hin, _⟩ | ⟨c, heq, hc⟩
  · exact .inl ⟨st'.sorted, by unfold topologicalSort; rw [heq]; rfl, hg.nd, hg.sub,
      fun m hm => (hg.mem_iff m).mp (hin m hm), fun m d hE hm => hg.topo m d hE hm⟩
  · exact .inr ⟨c, by unfold topologicalSort; rw [heq]; rfl, hc⟩

/-- A list that respects every effective edge has strictly decreasing
positions along any nonempty walk of effective edges. -/
lemma topo_reach {keys : List String} {g : String → List String} (l : List String)
    (htopo : ∀ m d, EdgeR keys g m d → m ∈ l → d ∈ l ∧ l.indexOf d < l.indexOf m) :
    ∀ a b, Relation.TransGen (EdgeR keys g) a b → a ∈ l →
      b ∈ l ∧ l.indexOf b < l.indexOf a := by
  intro a b h
  induction h with
  | single h' => exact fun ha => htopo _ _ h' ha
  | tail _ hbc ih =>
    intro ha
    obtain ⟨hb, hlt⟩ := ih ha
    obtain ⟨hc, hlt'⟩ := htopo _ _ hbc hb
    exact ⟨hc, hlt'.trans hlt⟩

/-- The endpoint of a nonempty walk of effective edges is a registry key. -/
lemma transGen_target_mem {keys : List String} {g : String → List String} {a b : String}
    (h : Relation.TransGen (EdgeR keys g) a b) : b ∈ keys := by
  induction h with
  | single h' => exact h'.2
  | tail _ h' _ => exact h'.2

/-- `module in dict` implies `dict[module]` succeeds:
a key of the association list has a `lookup` result. -/
lemma lookup_isSome_of_mem_keys {mtf : Registry} {m : String} (h : m ∈ keysOf mtf) :
    (List.lookup m mtf).isSome := by
  induction mtf with
  | nil => simp [keysOf] at h
  | cons p l ih =>
    obtain ⟨k, v⟩ := p
    rw [List.lookup_cons]
    by_cases hk : m = k
    · simp [hk]
    · have hbeq : (m == k) = false := by simp [hk]
      rw [hbeq]
      exact ih (by simpa [keysOf, hk] using h)

/-- A `mapM` over `Option` succeeds when it succeeds pointwise. -/
lemma mapM_isSome {α β : Type} (f : α → Option β) :
    ∀ (l : List α), (∀ x ∈ l, (f x).isSome) → ∃ ys, l.mapM f = some ys := by
  intro l
  induction l with
  | nil => exact fun _ => ⟨[], rfl⟩
  | cons x xs ih =>
    intro h
    obtain ⟨y, hy⟩ := Option.isSome_iff_exists.mp (h x (by simp))
    obtain ⟨ys, hys⟩ := ih (fun x' hx' => h x' (by simp [hx']))
    exact ⟨y :: ys, by rw [List.mapM_cons, hy, hys]; rfl⟩

/-- The registry built by `_build_module_mapping` has duplicate-free keys
(it is a Python dict), which justifies the `Nodup` hypotheses below. -/
lemma buildModuleMapping_keys_nodup (relpathFn : String → String → String)
    (files : List String) (baseDir : String) :
    (keysOf (buildModuleMapping relpathFn files baseDir)).Nodup := by
  have hins : ∀ (acc : List (String × String)) (k : String) (v : String),
      (keysOf acc).Nodup → (keysOf (insertAssoc acc k v)).Nodup := by
    intro acc k v hnd
    unfold insertAssoc
    by_cases hk : k ∈ acc.map Prod.fst
    · rw [if_pos hk]
      have : keysOf (acc.map (fun p => if p.1 = k then (k, v) else p)) = keysOf acc := by
        unfold keysOf
        rw [List.map_map]
        apply List.map_congr_left
        intro p _
        by_cases hp : p.1 = k
        · simp [hp]
        · simp [hp]
      rw [this]; exact hnd
    · rw [if_neg hk]
      unfold keysOf
      rw [List.map_append]
      simp only [List.map_cons, List.map_nil]
      rw [List.nodup_append_comm]
      exact List.nodup_cons.mpr ⟨hk, hnd⟩
  suffices h : ∀ (files' : List String) (acc : List (String × String)), (keysOf acc).Nodup →
      (keysOf (files'.foldl
        (fun acc fp => insertAssoc acc (moduleNameOf relpathFn baseDir fp) fp) acc)).Nodup by
    exact h files [] (by simp [keysOf])
  intro files'
  induction files' with
  | nil => exact fun acc h => h
  | cons fp fps ih => exact fun acc h => ih _ (hins acc _ fp h)

/-! ### Fixture: the diamond graph of §8, as a full pipeline run.

Files `A.py`, `B.py`, `C.py`, `D.py` in that input order; `A` imports
`C` then `B` (`diamondExtract`) or `B` then `C` (`diamondExtractBC`),
`B` and `C` import `D`. -/

def diamondFiles : List String := ["A.py", "B.py", "C.py", "D.py"]

def diamondExtract : String → Except String (List RawImport) := fun fp =>
  if fp = "A.py" then .ok [.imp "C", .imp "B"]
  else if fp = "B.py" then .ok [.imp "D"]
  else if fp = "C.py" then .ok [.imp "D"]
  else .ok []

def diamondExtractBC : String → Except String (List RawImport) := fun fp =>
  if fp = "A.py" then .ok [.imp "B", .imp "C"]
  else if fp = "B.py" then .ok [.imp "D"]
  else if fp = "C.py" then .ok [.imp "D"]
  else .ok []

/-- The diamond registry and dependency graph at the sorter level. -/
def mtfD : Registry := [("A", "A.py"), ("B", "B.py"), ("C", "C.py"), ("D", "D.py")]

def gD : String → List String := fun m =>
  if m = "A" then ["C", "B"]
  else if m = "B" then ["D"]
  else if m = "C" then ["D"]
  else []

/-- A two-module cyclic graph (`A` and `B` import each other). -/
def mtfC : Registry := [("A", "A.py"), ("B", "B.py")]

def gC : String → List String := fun m =>
  if m = "A" then ["B"] else if m = "B" then ["A"] else []

/-- A rank function witnessing that the diamond is acyclic. -/
def rankD : String → Nat := fun s => if s = "A" then 2 else if s = "D" then 0 else 1

lemma rankD_lt_of_edge : ∀ a b, EdgeR (keysOf mtfD) gD a b → rankD b < rankD a := by
  intro a b hE
  obtain ⟨hb, _⟩ := hE
  by_cases ha : a = "A"
  · subst ha
    rw [show gD "A" = ["C", "B"] from rfl] at hb
    simp only [List.mem_cons, List.mem_singleton, List.not_mem_nil, or_false] at hb
    rcases hb with rfl | rfl <;> decide
  · by_cases hB : a = "B"
    · subst hB
      rw [show gD "B" = ["D"] from rfl] at hb
      rcases List.mem_singleton.mp hb with rfl
      decide
    · by_cases hC : a = "C"
      · subst hC
        rw [show gD "C" = ["D"] from rfl] at hb
        rcases List.mem_singleton.mp hb with rfl
        decide
      · exfalso
        simp [gD, ha, hB, hC] at hb

lemma gD_acyclic : ∀ c, ¬ CycleAt (keysOf mtfD) gD c := by
  intro c hc
  have hlt : ∀ a b, Relation.TransGen (EdgeR (keysOf mtfD) gD) a b → rankD b < rankD a := by
    intro a b h
    induction h with
    | single h' => exact rankD_lt_of_edge _ _ h'
    | tail _ h' ih => exact (rankD_lt_of_edge _ _ h').trans ih
  exact absurd (hlt c c hc) (lt_irrefl _)

/-- **C1.** For every registry (with its dict-given duplicate-free keys)
and every dependency graph whose effective edges are acyclic, the sort
succeeds and returns a sequence of the registry's size that is a
permutation of all registry identities (duplicate-free, same members),
in which every effective dependency `d` of a module `m` is placed
strictly before `m`. -/
theorem sort_of_acyclic_is_topological_permutation
    (mtf : Registry) (g : String → List String)
    (hnd : (keysOf mtf).Nodup)
    (hacyc : ∀ c, ¬ CycleAt (keysOf mtf) g c) :
    ∃ l, topologicalSort mtf g = .ok l ∧
      l.length = (keysOf mtf).length ∧ l.Nodup ∧
      (∀ x, x ∈ l ↔ x ∈ keysOf mtf) ∧
      (∀ m d, EdgeR (keysOf mtf) g m d → m ∈ l → l.indexOf d < l.indexOf m) := by
  rcases topologicalSort_spec mtf g with
    ⟨l, heq, hndl, hsub, hcompl, htopo⟩ | ⟨c, _, hc⟩
  · refine ⟨l, heq, ?_, hndl, fun x => ⟨hsub x, hcompl x⟩,
      fun m d hE hm => (htopo m d hE hm).2⟩
    have hfs : l.toFinset = (keysOf mtf).toFinset := by
      ext x
      simp only [List.mem_toFinset]
      exact ⟨hsub x, hcompl x⟩
    calc l.length = l.toFinset.card := (List.toFinset_card_of_nodup hndl).symm
      _ = (keysOf mtf).toFinset.card := by rw [hfs]
      _ = (keysOf mtf).length := List.toFinset_card_of_nodup hnd
  · exact absurd hc (hacyc c)

/-- Witness for C1 on the concrete diamond instance. -/
theorem sort_of_acyclic_witness :
    ∃ l, topologicalSort mtfD gD = .ok l ∧
      l.length = (keysOf mtfD).length ∧ l.Nodup ∧
      (∀ x, x ∈ l ↔ x ∈ keysOf mtfD) ∧
      (∀ m d, EdgeR (keysOf mtfD) gD m d → m ∈ l → l.indexOf d < l.indexOf m) :=
  sort_of_acyclic_is_topological_permutation mtfD gD (by decide) gD_acyclic

/-- **C2.** Whenever the effective dependency graph contains a cycle, the
sort raises the cycle `ValueError` naming a module that is on a cycle, no
ordering is produced, and `get_sorted_files` hands the caller the empty
list. -/
theorem cycle_detection_aborts_sort (mtf : Registry) (g : String → List String)
    (hcyc : ∃ c, CycleAt (keysOf mtf) g c) :
    ∃ c, topologicalSort mtf g = .error (.cycle c) ∧ CycleAt (keysOf mtf) g c ∧
      getSortedFromGraph mtf g = some [] := by
  rcases topologicalSort_spec mtf g with
    ⟨l, _, _, _, hcompl, htopo⟩ | ⟨c, heq, hc⟩
  · exfalso
    obtain ⟨c, hc⟩ := hcyc
    have hck : c ∈ keysOf mtf := transGen_target_mem hc
    have hcl : c ∈ l := hcompl c hck
    have := (topo_reach l htopo c c hc hcl).2
    omega
  · exact ⟨c, heq, hc, by unfold getSortedFromGraph; rw [heq]⟩

/-- Witness for C2 on the two-module cycle. -/
theorem cycle_detection_witness :
    ∃ c, topologicalSort mtfC gC = .error (.cycle c) ∧ CycleAt (keysOf mtfC) gC c ∧
      getSortedFromGraph mtfC gC = some [] := by
  have h1 : EdgeR (keysOf mtfC) gC "A" "B" := ⟨by decide, by decide⟩
  have h2 : EdgeR (keysOf mtfC) gC "B" "A" := ⟨by decide, by decide⟩
  exact cycle_detection_aborts_sort mtfC gC ⟨"A", (Relation.TransGen.single h1).tail h2⟩

/-- **C10.** Every identity in a successful sort's output is a registry
key, so translating the output back to file paths
(`self.module_to_file[module]`) cannot raise: `get_sorted_files` returns
the translated list. -/
theorem sorted_output_translates_without_lookup_failure
    (mtf : Registry) (g : String → List String) (l : List String)
    (h : topologicalSort mtf g = .ok l) :
    (∀ m ∈ l, m ∈ keysOf mtf) ∧
    ∃ paths, l.mapM (fun m => List.lookup m mtf) = some paths ∧
      getSortedFromGraph mtf g = some paths := by
  rcases topologicalSort_spec mtf g with
    ⟨l', heq, _, hsub, _, _⟩ | ⟨c, heq, _⟩
  · have hl : l' = l := by
      rw [heq] at h
      injection h
    subst hl
    refine ⟨hsub, ?_⟩
    obtain ⟨paths, hp⟩ := mapM_isSome (fun m => List.lookup m mtf) l'
      (fun m hm => lookup_isSome_of_mem_keys (hsub m hm))
    exact ⟨paths, hp, by unfold getSortedFromGraph; rw [heq]; exact hp⟩
  · rw [heq] at h
    exact absurd h (by simp)

/-- Witness for C10 on the concrete diamond instance. -/
theorem sorted_output_translates_witness :
    (∀ m ∈ (["D", "C", "B", "A"] : List String), m ∈ keysOf mtfD) ∧
    ∃ paths, (["D", "C", "B", "A"] : List String).mapM (fun m => List.lookup m mtfD)
        = some paths ∧
      getSortedFromGraph mtfD gD = some paths :=
  sorted_output_translates_without_lookup_failure mtfD gD _ rfl

/-! ### Claims about reference resolution and identity derivation -/

/-- **C3, counterexample.** For module `pkg.sub.mod`, a relative
reference at level 1 to name `x` does *not* resolve to `pkg.x`: even with
`pkg.x` present in the registry, the resolver adds nothing (the level-1
candidate is the sibling `pkg.sub.x`). -/
theorem relative_level_one_not_package_relative :
    "pkg.x" ∈ keysOf [("pkg.sub.mod", "mod.py"), ("pkg.x", "x.py")] ∧
    resolveRef [("pkg.sub.mod", "mod.py"), ("pkg.x", "x.py")] "pkg.sub.mod"
      (.impFrom (some "x") 1) = none := ⟨by decide, rfl⟩

lemma relativeCandidate_gt_three (level : Nat) (hl : 3 < level) :
    relativeCandidate "pkg.sub.mod" "x" level = none := by
  unfold relativeCandidate
  rw [show splitOnDot "pkg.sub.mod" = ["pkg", "sub", "mod"] from rfl]
  simp only [List.length_cons, List.length_nil]
  rw [if_neg (by omega)]

/-- **C3, amended.** For module `pkg.sub.mod`, a relative reference at
level `L` to name `x` drops the last `L` identity segments: level 1
yields the candidate `pkg.sub.x`, level 2 yields `pkg.x`, level 3 yields
`x`, and a level exceeding the 3 identity segments yields no candidate,
so (when `x` itself is not a registry key) the reference is dropped
without error. -/
theorem relative_resolution_drops_level_segments :
    relativeCandidate "pkg.sub.mod" "x" 1 = some "pkg.sub.x" ∧
    relativeCandidate "pkg.sub.mod" "x" 2 = some "pkg.x" ∧
    relativeCandidate "pkg.sub.mod" "x" 3 = some "x" ∧
    (∀ level, 3 < level → relativeCandidate "pkg.sub.mod" "x" level = none) ∧
    (∀ (mtf : Registry) (level : Nat), "x" ∉ keysOf mtf → 3 < level →
      resolveRef mtf "pkg.sub.mod" (.impFrom (some "x") level) = none) := by
  refine ⟨rfl, rfl, rfl, relativeCandidate_gt_three, ?_⟩
  intro mtf level hx hl
  show (if ("x" : String) = "" then none
    else if "x" ∈ keysOf mtf then some "x"
    else if 0 < level then
      match relativeCandidate "pkg.sub.mod" "x" level with
      | some full => if full ∈ keysOf mtf then some full else none
      | none => none
    else none) = none
  rw [if_neg (by decide), if_neg hx, if_pos (by omega), relativeCandidate_gt_three level hl]

/-- Witness for the amended C3 at level 4. -/
theorem relative_resolution_drops_witness :
    relativeCandidate "pkg.sub.mod" "x" 4 = none ∧
    resolveRef [] "pkg.sub.mod" (.impFrom (some "x") 4) = none :=
  ⟨relative_resolution_drops_level_segments.2.2.2.1 4 (by omega),
    relative_resolution_drops_level_segments.2.2.2.2 [] 4 (by simp [keysOf]) (by omega)⟩

/-- **C4.** Evaluation of the identity derivation at the failing input
`happy.py` (no base directory): `rstrip('.py')` strips the whole trailing
run of `.`/`p`/`y` characters, so the stored identity is `"ha"`, not the
`"happy"` the specified exactly-one-extension removal would give. -/
theorem rstrip_mangles_identity :
    buildModuleMapping (fun fp _ => fp) ["happy.py"] "" = [("ha", "happy.py")] ∧
    ("ha" : String) ≠ "happy" := ⟨rfl, by decide⟩

/-- **C5, counterexample.** Two distinct input files with the same
derived identity (`a/b.py` and `a.b.py` both yield `a.b`): the run does
*not* complete — `get_sorted_files` crashes (uncaught `StopIteration`,
modelled as `none`) instead of returning a sorted list. -/
theorem duplicate_identity_claim_refuted :
    getSortedFiles (fun fp _ => fp) ["a/b.py", "a.b.py"] "" (fun _ => .ok []) = none := rfl

/-- **C5, amended.** On duplicate identities the later file silently
replaces the earlier one in the registry (no error at registry-build
time), but the run then aborts: `next(...)` in `_build_dependency_graph`
finds no key for the overwritten earlier file and raises an uncaught
`StopIteration`, so graph construction and sorting do not complete. -/
theorem duplicate_identity_overwrites_then_crashes :
    buildModuleMapping (fun fp _ => fp) ["a/b.py", "a.b.py"] "" = [("a.b", "a.b.py")] ∧
    firstKeyOf (buildModuleMapping (fun fp _ => fp) ["a/b.py", "a.b.py"] "") "a/b.py"
      = none ∧
    buildDependencyGraph (buildModuleMapping (fun fp _ => fp) ["a/b.py", "a.b.py"] "")
      ["a/b.py", "a.b.py"] (fun _ => .ok []) [] = none ∧
    getSortedFiles (fun fp _ => fp) ["a/b.py", "a.b.py"] "" (fun _ => .ok [])
      = none := ⟨rfl, rfl, rfl, rfl⟩

/-- **C6, counterexample.** Diamond over input order `A, B, C, D` where
`A`'s source imports `C` before `B`: the input file order has `B` before
`C`, but the output orders `C.py` before `B.py` — the relative order of
`B` and `C` follows the iteration order of `A`'s dependency set, not the
input file order. -/
theorem diamond_order_not_input_order :
    getSortedFiles (fun fp _ => fp) diamondFiles "" diamondExtract
      = some ["D.py", "C.py", "B.py", "A.py"] ∧
    diamondFiles.indexOf "B.py" < diamondFiles.indexOf "C.py" ∧
    (["D.py", "C.py", "B.py", "A.py"] : List String).indexOf "C.py" <
      (["D.py", "C.py", "B.py", "A.py"] : List String).indexOf "B.py" :=
  ⟨rfl, by decide, by decide⟩

/-- **C6, amended.** In the diamond, `D` is emitted before both `B` and
`C` and both before `A`; the relative order of `B` versus `C` is
determined by the iteration order of `A`'s dependency set (here: the
order `A`'s imports are extracted), not by the input file order — the
same input order yields either `B` before `C` or `C` before `B` as `A`'s
extracted import order flips. -/
theorem diamond_order_follows_dep_iteration_order :
    getSortedFiles (fun fp _ => fp) diamondFiles "" diamondExtractBC
      = some ["D.py", "B.py", "C.py", "A.py"] ∧
    getSortedFiles (fun fp _ => fp) diamondFiles "" diamondExtract
      = some ["D.py", "C.py", "B.py", "A.py"] ∧
    (∀ l : List String,
      (l = ["D.py", "B.py", "C.py", "A.py"] ∨ l = ["D.py", "C.py", "B.py", "A.py"]) →
      l.indexOf "D.py" < l.indexOf "B.py" ∧ l.indexOf "D.py" < l.indexOf "C.py" ∧
      l.indexOf "B.py" < l.indexOf "A.py" ∧ l.indexOf "C.py" < l.indexOf "A.py") := by
  refine ⟨rfl, rfl, ?_⟩
  intro l hl
  rcases hl with rfl | rfl <;> refine ⟨by decide, by decide, by decide, by decide⟩

/-- Witness for the amended C6 (discharging its hypothesis at the first
of the two concrete outputs). -/
theorem diamond_order_witness :
    (["D.py", "B.py", "C.py", "A.py"] : List String).indexOf "D.py" <
      (["D.py", "B.py", "C.py", "A.py"] : List String).indexOf "B.py" :=
  (diamond_order_follows_dep_iteration_order.2.2 _ (.inl rfl)).1

/-- Everything `resolveRef` ever returns is a registry key. -/
lemma resolveRef_mem {mtf : Registry} {mn : String} {r : RawImport} {d : String}
    (h : resolveRef mtf mn r = some d) : d ∈ keysOf mtf := by
  cases r with
  | imp name =>
    by_cases hk : name ∈ keysOf mtf
    · rw [show resolveRef mtf mn (.imp name) = if name ∈ keysOf mtf then some name else none
        from rfl, if_pos hk] at h
      injection h with h'
      rw [← h']; exact hk
    · rw [show resolveRef mtf mn (.imp name) = if name ∈ keysOf mtf then some name else none
        from rfl, if_neg hk] at h
      exact absurd h (by simp)
  | impFrom mod level =>
    cases mod with
    | none => exact absurd h (by simp [resolveRef])
    | some m =>
      rw [show resolveRef mtf mn (.impFrom (some m) level) =
        (if m = "" then none
        else if m ∈ keysOf mtf then some m
        else if 0 < level then
          match relativeCandidate mn m level with
          | some full => if full ∈ keysOf mtf then some full else none
          | none => none
        else none) from rfl] at h
      by_cases h1 : m = ""
      · rw [if_pos h1] at h; exact absurd h (by simp)
      · rw [if_neg h1] at h
        by_cases h2 : m ∈ keysOf mtf
        · rw [if_pos h2] at h; injection h with h'; rw [← h']; exact h2
        · rw [if_neg h2] at h
          by_cases h3 : 0 < level
          · rw [if_pos h3] at h
            cases hc : relativeCandidate mn m level with
            | none => rw [hc] at h; exact absurd h (by simp)
            | some full =>
              rw [hc] at h
              have hfull : (if full ∈ keysOf mtf then some full else none) = some d := h
              by_cases h4 : full ∈ keysOf mtf
              · rw [if_pos h4] at hfull; injection hfull with h'; rw [← h']; exact h4
              · rw [if_neg h4] at hfull; exact absurd hfull (by simp)
          · rw [if_neg h3] at h; exact absurd h (by simp)

/-- The fold of the `ast.walk` loop only ever collects registry keys. -/
lemma foldl_resolve_mem (mtf : Registry) (mn : String) :
    ∀ (refs : List RawImport) (acc : List String),
    (∀ x ∈ acc, x ∈ keysOf mtf) →
    ∀ d ∈ refs.foldl
      (fun deps r =>
        match resolveRef mtf mn r with
        | some d' => addDep deps d'
        | none => deps) acc, d ∈ keysOf mtf := by
  intro refs
  induction refs with
  | nil => exact fun acc hacc d hd => hacc d hd
  | cons r rs ih =>
    intro acc hacc d hd
    rw [List.foldl_cons] at hd
    cases hr : resolveRef mtf mn r with
    | none =>
      rw [hr] at hd
      exact ih acc hacc d hd
    | some d' =>
      rw [hr] at hd
      refine ih (addDep acc d') ?_ d hd
      intro x hx
      unfold addDep at hx
      by_cases hda : d' ∈ acc
      · rw [if_pos hda] at hx; exact hacc x hx
      · rw [if_neg hda] at hx
        rcases List.mem_append.mp hx with hx' | hx'
        · exact hacc x hx'
        · rcases List.mem_singleton.mp hx' with rfl
          exact resolveRef_mem hr

/-- **C8.** References that do not resolve to a registry identity are
silently dropped: every collected dependency is a registry key, and
removing an unresolvable reference from the extracted list leaves the
collected dependency set unchanged (resolution itself never fails). -/
theorem unresolved_references_silently_dropped (mtf : Registry) (mn : String) :
    (∀ (refs : List RawImport) (d : String),
      d ∈ resolveAll mtf mn refs → d ∈ keysOf mtf) ∧
    (∀ (pre post : List RawImport) (r : RawImport), resolveRef mtf mn r = none →
      resolveAll mtf mn (pre ++ r :: post) = resolveAll mtf mn (pre ++ post)) := by
  constructor
  · intro refs d hd
    exact foldl_resolve_mem mtf mn refs [] (by simp) d hd
  · intro pre post r hr
    unfold resolveAll
    rw [List.foldl_append, List.foldl_append, List.foldl_cons, hr]

/-- Shared small registry for the resolution witnesses. -/
def mtfW : Registry := [("a", "a.py")]

/-- Witness for C8: the external reference `zzz` is dropped without
affecting the rest of the dependency set. -/
theorem unresolved_references_witness :
    resolveAll mtfW "m" [RawImport.imp "zzz", RawImport.imp "a"] =
      resolveAll mtfW "m" [RawImport.imp "a"] := by
  have h := (unresolved_references_silently_dropped mtfW "m").2 []
    [RawImport.imp "a"] (RawImport.imp "zzz") rfl
  simpa using h

/-- **C9.** For an `ImportFrom` whose (nonempty) raw module string is a
registry key verbatim, the resolver adds that key directly — whatever the
relative level — without applying the level-based parent adjustment. -/
theorem absolute_match_precedes_relative (mtf : Registry) (mn name : String) (level : Nat)
    (hne : name ≠ "") (hmem : name ∈ keysOf mtf) :
    resolveRef mtf mn (.impFrom (some name) level) = some name := by
  show (if name = "" then none
    else if name ∈ keysOf mtf then some name
    else if 0 < level then
      match relativeCandidate mn name level with
      | some full => if full ∈ keysOf mtf then some full else none
      | none => none
    else none) = some name
  rw [if_neg hne, if_pos hmem]

/-- Witness for C9: `from ..a import something` at level 2 resolves to
the registry key `a` itself, not to a parent-adjusted candidate. -/
theorem absolute_match_witness :
    resolveRef mtfW "pkg.sub.mod" (.impFrom (some "a") 2) = some "a" :=
  absolute_match_precedes_relative mtfW "pkg.sub.mod" "a" 2 (by decide) (by decide)

/-- Graph construction only sees the extractor through
`getImportsFromFile`; pointwise-equal import results give the same graph. -/
lemma buildDependencyGraph_extract_congr (mtf : Registry)
    (extract₁ extract₂ : String → Except String (List RawImport))
    (h : ∀ fp, getImportsFromFile mtf fp (extract₁ fp) =
      getImportsFromFile mtf fp (extract₂ fp)) :
    ∀ (files : List String) (graph : List (String × List String)),
    buildDependencyGraph mtf files extract₁ graph =
      buildDependencyGraph mtf files extract₂ graph := by
  intro files
  induction files with
  | nil => exact fun _ => rfl
  | cons fp fps ih =>
    intro graph
    show (match firstKeyOf mtf fp, getImportsFromFile mtf fp (extract₁ fp) with
      | some mn, some deps => buildDependencyGraph mtf fps extract₁ (insertAssoc graph mn deps)
      | _, _ => none) =
      (match firstKeyOf mtf fp, getImportsFromFile mtf fp (extract₂ fp) with
      | some mn, some deps => buildDependencyGraph mtf fps extract₂ (insertAssoc graph mn deps)
      | _, _ => none)
    rw [h fp]
    cases firstKeyOf mtf fp with
    | none => cases getImportsFromFile mtf fp (extract₂ fp) <;> rfl
    | some mn =>
      cases getImportsFromFile mtf fp (extract₂ fp) with
      | none => rfl
      | some deps => exact ih _

/-- **C7.** A file whose extraction fails is recovered locally: the whole
run (`get_sorted_files`) behaves exactly as if that file had extracted
zero imports — it contributes the empty dependency set and every other
file is processed unchanged — and the failure shows up on the warning
channel (`print`) as `Error parsing <file>: <e>`, never as a run
failure. -/
theorem extraction_failure_is_local_warning
    (relpathFn : String → String → String) (files : List String) (baseDir : String)
    (extract : String → Except String (List RawImport)) (f msg : String)
    (hf : f ∈ files) :
    getSortedFiles relpathFn files baseDir (Function.update extract f (.error msg)) =
      getSortedFiles relpathFn files baseDir (Function.update extract f (.ok [])) ∧
    getImportsFromFile (buildModuleMapping relpathFn files baseDir) f (.error msg) =
      (firstKeyOf (buildModuleMapping relpathFn files baseDir) f).map
        (fun _ => ([] : List String)) ∧
    ("Error parsing " ++ f ++ ": " ++ msg) ∈
      extractionWarnings files (Function.update extract f (.error msg)) := by
  refine ⟨?_, rfl, ?_⟩
  · have hg : buildDependencyGraph (buildModuleMapping relpathFn files baseDir) files
        (Function.update extract f (.error msg)) [] =
      buildDependencyGraph (buildModuleMapping relpathFn files baseDir) files
        (Function.update extract f (.ok [])) [] := by
      apply buildDependencyGraph_extract_congr
      intro fp
      by_cases hfp : fp = f
      · subst hfp
        rw [Function.update_same, Function.update_same]
        rfl
      · rw [Function.update_noteq hfp, Function.update_noteq hfp]
    simp only [getSortedFiles, hg]
  · unfold extractionWarnings
    refine List.mem_filterMap.mpr ⟨f, hf, ?_⟩
    rw [Function.update_same]

/-- Witness for C7 on a one-file run whose extraction fails. -/
theorem extraction_failure_witness :
    getSortedFiles (fun fp _ => fp) ["m.py"] ""
        (Function.update (fun _ => Except.ok []) "m.py" (.error "boom")) =
      getSortedFiles (fun fp _ => fp) ["m.py"] ""
        (Function.update (fun _ => Except.ok []) "m.py" (.ok [])) ∧
    getImportsFromFile (buildModuleMapping (fun fp _ => fp) ["m.py"] "") "m.py"
        (.error "boom") =
      (firstKeyOf (buildModuleMapping (fun fp _ => fp) ["m.py"] "") "m.py").map
        (fun _ => ([] : List String)) ∧
    ("Error parsing " ++ "m.py" ++ ": " ++ "boom") ∈
      extractionWarnings ["m.py"]
        (Function.update (fun _ => Except.ok []) "m.py" (.error "boom")) :=
  extraction_failure_is_local_warning (fun fp _ => fp) ["m.py"] ""
    (fun _ => Except.ok []) "m.py" "boom" (by simp)

end PyMerger
